import Mathlib

/-!
Shallow embedding of `src/discord/ext/commands/formatter.py` (class `HelpFormatter`)
together with the parts of the CPython standard library it relies on
(`textwrap.TextWrapper`, `str.expandtabs`, `str.replace`, `str.ljust`-style padding).

Modelling conventions:
- Python strings are Lean `String`; machine-level details (utf-8 positions) are
  irrelevant here, Python string comparison is code-point lexicographic and is
  modelled on `String.data` (`List Char`, one element per code point).
- Fallible Python code (a raised exception) is `Except PyErr`.
- `HelpFormatter` instance state `self._pages / self._current_page / self._count`
  is an explicit `PageState` threaded through the functions.
- All definitions are structurally recursive (loops that are not structurally
  recursive in the source get an explicit fuel argument that is always chosen
  large enough; the fuel-out branch is unreachable because every iteration of the
  corresponding Python loop strictly decreases the total chunk size plus the
  number of chunks).
-/

/-- Exceptions that the modelled code can raise: a failing command check
(discord.ext.commands.CheckFailure raised from inside a check predicate) and
ValueError (raised by `max()` on an empty sequence and by textwrap on a width
that is too small for the placeholder). -/
inductive PyErr : Type where
  | checkFailure : PyErr
  | valueError : PyErr
deriving DecidableEq

/-- One value of `Command.clean_params` (an `inspect.Parameter`):
`default = none` models `param.default is param.empty`; `default = some s`
models a present default whose `str()` rendering is `s`; `var_positional`
models `param.kind == param.VAR_POSITIONAL`. -/
structure Param : Type where
  default : Option String
  var_positional : Bool

/-- The fields of `Context` used by the formatter: `context.prefix` (here `pfx`,
renamed for Lean), `context.bot.user.mention` and `context.bot.user.name`. -/
structure Ctx : Type where
  pfx : String
  botMention : String
  botName : String

/-- The `HelpFormatter` constructor arguments (`show_hidden`,
`show_check_faiure` [sic, the typo is in the source], `width`). -/
structure Config : Type where
  show_hidden : Bool
  show_check_faiure : Bool
  width : Nat

/-- A discord.py `Command` (or `Group`/`Bot`), restricted to the fields the
formatter reads.  `subcommands = some items` models an object with a
`.commands` mapping (a `GroupMixin`), with `items` the insertion-ordered
`commands.items()` pairs; `subcommands = none` models a plain `Command`.
`can_run` is the externally supplied authorization check; it may raise. -/
inductive Command : Type where
  | mk
    (name : String)
    (aliases : List String)
    (short_doc : String)
    (description : String)
    (helpDoc : String)
    (cog_name : Option String)
    (hidden : Bool)
    (can_run : Ctx → Except PyErr Bool)
    (clean_params : List (String × Param))
    (subcommands : Option (List (String × Command)))

def Command.name : Command → String
  | .mk n _ _ _ _ _ _ _ _ _ => n

def Command.aliases : Command → List String
  | .mk _ a _ _ _ _ _ _ _ _ => a

def Command.short_doc : Command → String
  | .mk _ _ s _ _ _ _ _ _ _ => s

def Command.description : Command → String
  | .mk _ _ _ d _ _ _ _ _ _ => d

def Command.help : Command → String
  | .mk _ _ _ _ h _ _ _ _ _ => h

def Command.cog_name : Command → Option String
  | .mk _ _ _ _ _ c _ _ _ _ => c

def Command.hidden : Command → Bool
  | .mk _ _ _ _ _ _ h _ _ _ => h

def Command.can_run : Command → Ctx → Except PyErr Bool
  | .mk _ _ _ _ _ _ _ f _ _ => f

def Command.clean_params : Command → List (String × Param)
  | .mk _ _ _ _ _ _ _ _ p _ => p

def Command.subcommands : Command → Option (List (String × Command))
  | .mk _ _ _ _ _ _ _ _ _ s => s

/-! ### Small Python string helpers -/

/-- Python `sep.join(parts)`. -/
def strJoin (sep : String) : List String → String
  | [] => ""
  | [x] => x
  | x :: xs => x ++ sep ++ strJoin sep xs

/-- Python string `<`: code-point lexicographic comparison. -/
def strLtb : List Char → List Char → Bool
  | [], [] => false
  | [], _ :: _ => true
  | _ :: _, [] => false
  | a :: as, b :: bs => if a < b then true else if b < a then false else strLtb as bs

/-- Python `s.replace(old, new)` on code-point lists: replace every
non-overlapping occurrence, scanning left to right.  Fuel is the length of `s`,
enough because each step consumes at least one character of `s`
(`old` in the one call site, a user mention such as `<@123>`, is nonempty;
for an empty `old` Python would also insert `new` between characters, a case
the formatter never reaches and which this model leaves as the identity). -/
def pyReplaceGo (old new : List Char) : Nat → List Char → List Char
  | 0, s => s
  | _ + 1, [] => []
  | fuel + 1, c :: cs =>
    if old ≠ [] ∧ List.isPrefixOf old (c :: cs) then
      new ++ pyReplaceGo old new fuel (List.drop old.length (c :: cs))
    else
      c :: pyReplaceGo old new fuel cs

/-- Python `s.replace(old, new)`. -/
def pyReplace (s old new : String) : String :=
  String.mk (pyReplaceGo old.data new.data s.data.length s.data)

/-- Python `'{0:<{width}}'.format(name)`: left-justify, pad with spaces (text
longer than the width is returned unchanged). -/
def ljust (s : String) (w : Nat) : String :=
  s ++ String.mk (List.replicate (w - s.length) ' ')

/-! ### CPython textwrap port

The formatter builds `textwrap.TextWrapper(width=width)` and only ever calls
`self.wrapper.fill(text)` with `max_lines` temporarily set to 1 (method
`shorten`).  The port below follows CPython `Lib/textwrap.py` at that call
site, with the default options of `TextWrapper`:
`expand_tabs=True, tabsize=8, replace_whitespace=True, drop_whitespace=True,
initial_indent = subsequent_indent = two empty strings, fix_sentence_endings=False,
break_long_words=True, break_on_hyphens=True, placeholder=" [...]"`,
and `max_lines = 1`.  Because `max_lines = 1` and both indents are empty, the
generic `_wrap_chunks` loop is specialized: `indent` is always empty, the
`len(lines) + 1 < max_lines` disjunct is always false, and after the one
possible `lines.append` the loop can only discard a trailing whitespace chunk
and exit, so the result has at most one line.  The branch that retrofits the
placeholder onto a previous line is unreachable (it needs `lines` nonempty
while the current line is being dropped, which cannot happen on the first and
only line). -/

/-- Python `str.expandtabs()` (tabsize 8): the column counter advances per
character, is reset by `\n` and `\r`, and a tab becomes spaces up to the next
multiple of 8. -/
def expandTabsGo (tabsize : Nat) : List Char → Nat → List Char
  | [], _ => []
  | c :: cs, col =>
    if c = '\t' then
      let pad := tabsize - col % tabsize
      List.replicate pad ' ' ++ expandTabsGo tabsize cs (col + pad)
    else if c = '\n' ∨ c = '\r' then
      c :: expandTabsGo tabsize cs 0
    else
      c :: expandTabsGo tabsize cs (col + 1)

/-- The whitespace characters of `textwrap._whitespace` (`"\t\n\x0b\x0c\r "`). -/
def isPyWs (c : Char) : Bool :=
  c = '\t' ∨ c = '\n' ∨ c = '\x0b' ∨ c = '\x0c' ∨ c = '\r' ∨ c = ' '

/-- `TextWrapper._munge_whitespace`: expand tabs, then translate every
whitespace character to a space. -/
def mungeWhitespace (s : List Char) : List Char :=
  (expandTabsGo 8 s 0).map (fun c => if isPyWs c then ' ' else c)

/-- Python regex `\w` on a code point (`re.UNICODE` word character; modelled
for the alphanumeric and underscore characters). -/
def isWordChar (c : Char) : Bool := c.isAlphanum ∨ c = '_'

/-- The `letter` class of `textwrap`: `[^\d\W]` (word character, not a digit). -/
def isReLetter (c : Char) : Bool := isWordChar c ∧ ¬ c.isDigit

/-- The `word_punct` class of `textwrap`: `[\w!"\'&.,?]`. -/
def isWordPunct (c : Char) : Bool :=
  isWordChar c ∨ c = '!' ∨ c = '"' ∨ c = '\'' ∨ c = '&' ∨ c = '.' ∨ c = ',' ∨ c = '?'

/-- Lookahead `-{2,}\w`: a full run of at least two hyphens followed by a word
character (backtracking inside the run cannot help since a hyphen is not a
word character). -/
def emDashAhead (rest : List Char) : Bool :=
  let run := rest.takeWhile (· = '-')
  decide (2 ≤ run.length) && (match rest.drop run.length with
    | c :: _ => isWordChar c
    | [] => false)

/-- The stop conditions of the minimal `\S+?` word match of `wordsep_re` at
the current scan position: end of word (whitespace or end of string ahead), a
sanctioned hyphen break (the consumed text ends in `letter letter -` or
`letter - letter -`, at least one word character was consumed before the
hyphen, and ahead is `letter -? letter`), or an em-dash ahead after a
word-punctuation character.  `chunkRev` is the consumed part of the word
(reversed), `prevRev` everything before the current word (reversed, lookbehind
may inspect it), `rest` the unconsumed input. -/
def wordStop (prevRev chunkRev rest : List Char) : Bool :=
  let ctx := chunkRev ++ prevRev
  (match rest with
   | [] => true
   | c :: _ => decide (c = ' ')) ||
  (decide (2 ≤ chunkRev.length) &&
   (match ctx with
    | '-' :: b :: c :: _ => (isReLetter b && isReLetter c) ||
        (isReLetter b && decide (c = '-') && (match ctx.drop 3 with
          | d :: _ => isReLetter d
          | [] => false))
    | _ => false) &&
   (match rest with
    | x :: y :: _ => isReLetter x && (isReLetter y || (decide (y = '-') && (match rest.drop 2 with
        | z :: _ => isReLetter z
        | [] => false)))
    | [_] => false
    | [] => false)) ||
  ((match ctx with
    | c :: _ => isWordPunct c
    | [] => false) && emDashAhead rest)

/-- The minimal `\S+?` scan: consume characters until `wordStop` holds (fuel
is the length of the remaining input). -/
def wordScanGo (prevRev : List Char) : Nat → List Char → List Char → List Char × List Char
  | 0, chunkRev, rest => (chunkRev.reverse, rest)
  | _ + 1, chunkRev, [] => (chunkRev.reverse, [])
  | fuel + 1, chunkRev, c :: cs =>
    if wordStop prevRev chunkRev (c :: cs) then (chunkRev.reverse, c :: cs)
    else wordScanGo prevRev fuel (c :: chunkRev) cs

/-- `TextWrapper._split` on munged text: simulate the non-overlapping
left-to-right matches of the compiled `wordsep_re` (whitespace run | em-dash
run between words | word up to its first sanctioned break), with
`break_on_hyphens=True`.  Every alternative consumes at least one character,
so matches tile the input and the empty-chunk filter of `_split` is a no-op.
After munging, whitespace is exactly the space character.  `prevRev` is the
already-split text reversed (for the lookbehinds), and the fuel is the length
of the input. -/
def splitPyGo (prevRev : List Char) : Nat → List Char → List (List Char)
  | 0, _ => []
  | _ + 1, [] => []
  | fuel + 1, c :: cs =>
    if c = ' ' then
      let run := (c :: cs).takeWhile (· = ' ')
      let rest := (c :: cs).dropWhile (· = ' ')
      run :: splitPyGo (run.reverse ++ prevRev) fuel rest
    else if ((match prevRev with
             | p :: _ => isWordPunct p
             | [] => false) && emDashAhead (c :: cs)) = true then
      let run := (c :: cs).takeWhile (· = '-')
      let rest := (c :: cs).dropWhile (· = '-')
      run :: splitPyGo (run.reverse ++ prevRev) fuel rest
    else
      let wr := wordScanGo prevRev fuel [c] cs
      wr.1 :: splitPyGo (wr.1.reverse ++ prevRev) fuel wr.2

/-- `TextWrapper._split` (default options, on munged text). -/
def splitChunks (s : List Char) : List (List Char) :=
  splitPyGo [] (s.length + 1) s

/-- Python `chunk.strip() == ''` (chunk consists of whitespace only; on munged
chunks, of spaces only). -/
def isWsChunk (ch : List Char) : Bool := ch.all (· = ' ')

/-- Total length of a chunk list. -/
def sumLen (l : List (List Char)) : Nat := (l.map List.length).sum

/-- The inner greedy loop of `_wrap_chunks`: pop chunks onto the current line
while they fit within `width`; returns (current line, remaining chunks). -/
def greedyTake (w : Nat) (curLen : Nat) : List (List Char) → List (List Char) × List (List Char)
  | [] => ([], [])
  | ch :: rest =>
    if curLen + ch.length ≤ w then
      let tr := greedyTake w (curLen + ch.length) rest
      (ch :: tr.1, tr.2)
    else ([], ch :: rest)

/-- Python `chunk.rfind('-', 0, hi)` restricted to the prefix already taken:
index of the last `'-'`, if any. -/
def rfindHyphen : List Char → Option Nat
  | [] => none
  | c :: cs =>
    match rfindHyphen cs with
    | some i => some (i + 1)
    | none => if c = '-' then some 0 else none

/-- `TextWrapper._handle_long_word` with `break_long_words=True` and
`break_on_hyphens=True`: computes the split position `end` for the long chunk
at the head of the remaining chunks. -/
def handleLongWordEnd (w curLen : Nat) (chunk : List Char) : Nat :=
  let spaceLeft := if w < 1 then 1 else w - curLen
  if decide (chunk.length > spaceLeft) then
    match rfindHyphen (chunk.take spaceLeft) with
    | some hyphen =>
      if hyphen > 0 ∧ (chunk.take hyphen).any (· ≠ '-') then hyphen + 1 else spaceLeft
    | none => spaceLeft
  else spaceLeft

/-- The placeholder retry loop of `_wrap_chunks` (`max_lines` reached): drop
trailing chunks of the current line until the placeholder fits after a
non-whitespace chunk; `none` means the line was exhausted (Python then emits
`placeholder.lstrip()`).  The argument is the current line reversed, so the
loop is structural. -/
def popPlaceholder (w : Nat) : List (List Char) → Nat → Option (List Char)
  | [], _ => none
  | lc :: restRev, curLen =>
    if ¬ isWsChunk lc ∧ curLen + (" [...]".data.length) ≤ w then
      some ((lc :: restRev).reverse.flatten ++ " [...]".data)
    else
      popPlaceholder w restRev (curLen - lc.length)

/-- The long-word handling site of `_wrap_chunks`: when chunks remain and the
next chunk is wider than the width, `_handle_long_word` moves its first
`end` characters onto the current line and leaves the remainder in place. -/
def handleLongSplit (w : Nat) (pr : List (List Char) × List (List Char)) :
    List (List Char) × List (List Char) :=
  match pr.2 with
  | [] => (pr.1, [])
  | ch :: rs =>
    if w < ch.length then
      let e := handleLongWordEnd w (sumLen pr.1) ch
      (pr.1 ++ [ch.take e], ch.drop e :: rs)
    else (pr.1, ch :: rs)

/-- `if self.drop_whitespace and cur_line and cur_line[-1].strip() == '':
del cur_line[-1]`. -/
def dropTrailingWs (cur : List (List Char)) : List (List Char) :=
  match cur.getLast? with
  | some lc => if isWsChunk lc then cur.dropLast else cur
  | none => cur

/-- One iteration step of `_wrap_chunks` specialized to `max_lines = 1` and
`lines = []` (see the section comment): returns `none` when no line is
produced, and loops (through the fuel) when the whole current line was dropped
as whitespace. -/
def wrapOneGo (w : Nat) : Nat → List (List Char) → Option (List Char)
  | 0, _ => none
  | _ + 1, [] => none
  | fuel + 1, chunks =>
    let wl := handleLongSplit w (greedyTake w 0 chunks)
    let curLine := dropTrailingWs wl.1
    let curLen := sumLen curLine
    match curLine with
    | [] => wrapOneGo w fuel wl.2
    | _ :: _ =>
      if (wl.2 = [] ∨ (wl.2.length = 1 ∧ isWsChunk (wl.2.headD []))) ∧ curLen ≤ w then
        some curLine.flatten
      else
        match popPlaceholder w curLine.reverse curLen with
        | some l => some l
        | none => some ("[...]".data)

/-- `TextWrapper.wrap` with `max_lines = 1`: munge, split, run the loop.  The
fuel bound strictly exceeds any possible number of loop iterations. -/
def wrapMaxOne (w : Nat) (text : String) : List String :=
  let chunks := splitChunks (mungeWhitespace text.data)
  match wrapOneGo w (sumLen chunks + chunks.length + 1) chunks with
  | none => []
  | some l => [String.mk l]

/-- `HelpFormatter.shorten`: `self.wrapper.fill(text)` with `max_lines = 1`
(the method saves and restores `max_lines`, which the stateless model elides).
`fill` joins the wrapped lines with a newline.  The two `ValueError` raises of
`_wrap_chunks` (`width <= 0`, and placeholder wider than the width) collapse to
`width < 5` since `len(' [...]'.lstrip()) = 5` and both indents are empty. -/
def shorten (w : Nat) (text : String) : Except PyErr String :=
  if w < 5 then .error .valueError
  else .ok (strJoin "\n" (wrapMaxOne w text))

/-! ### The HelpFormatter methods

State attributes `self._pages`, `self._current_page`, `self._count` are an
explicit `PageState`.  One modelling convenience: the source stores each
finished page already joined (`'\n'.join(...)`) into `_pages`; here `pages`
keeps the line lists and `format` applies the same join once at the end,
producing the identical strings. -/

/-- The page fence literal (three backticks) that opens and closes every page. -/
def pageFence : String := "```"

structure PageState : Type where
  pages : List (List String)
  current_page : List String
  count : Nat
deriving DecidableEq

/-- `HelpFormatter.clean_prefix`:
`self.context.prefix.replace(user.mention, '@' + user.name)`. -/
def cleanPfx (ctx : Ctx) : String :=
  pyReplace ctx.pfx ctx.botMention ("@" ++ ctx.botName)

/-- `HelpFormatter.get_command_signature`. -/
def getCommandSignature (ctx : Ctx) (cmd : Command) : String :=
  let p := cleanPfx ctx
  let first :=
    if cmd.aliases.length > 0 then
      p ++ "[" ++ cmd.name ++ "|" ++ strJoin "|" cmd.aliases ++ "]"
    else
      p ++ cmd.name
  let result := first :: cmd.clean_params.map (fun np =>
    let cleaned_name := pyReplace np.1 "_" "-"
    match np.2.default with
    | some d => cleaned_name ++ "=" ++ d
    | none => if np.2.var_positional then cleaned_name ++ "..." else cleaned_name)
  strJoin " " result

/-- `HelpFormatter.get_ending_note`. -/
def getEndingNote (ctx : Ctx) : String :=
  "Type " ++ cleanPfx ctx ++ "help command for more info on a command.\n" ++
    "You can also type " ++ cleanPfx ctx ++ "help category for more info on a category."

/-- `HelpFormatter.max_name_size`: `max()` over the name lengths of the
`.commands` values; an absent `.commands` attribute (`AttributeError`) falls
back to the length of the command's own name, but `max()` of an empty
sequence raises `ValueError`, which is not caught. -/
def maxNameSize (cmd : Command) : Except PyErr Nat :=
  match cmd.subcommands with
  | none => .ok cmd.name.length
  | some items =>
    match items.map (fun e => e.2.name.length) with
    | [] => .error .valueError
    | n :: ns => .ok (ns.foldl max n)

/-- The predicate of `HelpFormatter.filter_command_list`: hidden commands are
dropped unless `show_hidden`; with `show_check_faiure` everything else passes;
otherwise the result is whatever `cmd.can_run(self.context)` returns — note
there is no exception handling around the call. -/
def filterPredicate (cfg : Config) (ctx : Ctx) (tup : String × Command) : Except PyErr Bool :=
  if tup.2.hidden && !cfg.show_hidden then .ok false
  else if cfg.show_check_faiure then .ok true
  else tup.2.can_run ctx

/-- `HelpFormatter.filter_command_list` over `self.command.commands.items()`
(the Python `filter` object is consumed strictly by its callers, left to
right, so a raising predicate call aborts the whole run at that entry). -/
def filterCommandList (cfg : Config) (ctx : Ctx) : List (String × Command) → Except PyErr (List (String × Command))
  | [] => .ok []
  | e :: rest => do
    let keep ← filterPredicate cfg ctx e
    let tail ← filterCommandList cfg ctx rest
    pure (if keep then e :: tail else tail)

/-- The local `category(tup)` key function of `HelpFormatter.format`: the cog
name with a colon, or the sentinel `'​No Category:'` (zero-width space
first, to sort last among typical labels). -/
def categoryOf (tup : String × Command) : String :=
  match tup.2.cog_name with
  | some cog => cog ++ ":"
  | none => "​No Category:"

/-- Stable insertion of one element into a key-sorted list (insert before the
first element whose key is not smaller). -/
def insortBy {α : Type} (keyLt : α → α → Bool) (x : α) : List α → List α
  | [] => [x]
  | y :: ys => if keyLt y x then y :: insortBy keyLt x ys else x :: y :: ys

/-- Python `sorted(data, key=...)`: a stable ascending sort by the key under
code-point `<`.  Any stable sort with the same ordering produces the same
list, so an insertion sort models Timsort exactly. -/
def pySorted {α : Type} (keyLt : α → α → Bool) : List α → List α
  | [] => []
  | x :: xs => insortBy keyLt x (pySorted keyLt xs)

/-- `itertools.groupby` over a list: maximal runs of consecutive elements with
equal keys, tagged with the run's key.  Every produced group is nonempty. -/
def groupRuns {α : Type} (key : α → String) : List α → List (String × List α)
  | [] => []
  | a :: rest =>
    match groupRuns key rest with
    | [] => [(key a, [a])]
    | (k, g) :: gs =>
      if key a = k then (key a, a :: g) :: gs else (key a, [a]) :: (k, g) :: gs

/-- The `sorted` + `groupby` pipeline of `HelpFormatter.format` (bot branch). -/
def categoryGroups (data : List (String × Command)) : List (String × List (String × Command)) :=
  groupRuns categoryOf
    (pySorted (fun a b => strLtb (categoryOf a).data (categoryOf b).data) data)

/-- `HelpFormatter._check_new_page`: close the page when the running count
exceeds the hard-coded 1920 (comment in the source: be a little on the safe
side), then start a fresh page holding only the fence with the count reset to
4 (fence plus newline). -/
def checkNewPage (st : PageState) : PageState :=
  if st.count > 1920 then
    { pages := st.pages ++ [st.current_page ++ [pageFence]],
      current_page := [pageFence],
      count := 4 }
  else st

/-- The entry string `'  {0:<{width}} {1}'.format(name, command.short_doc,
width=max_width)` of `HelpFormatter._add_subcommands_to_page`. -/
def entryText (max_width : Nat) (name : String) (cmd : Command) : String :=
  "  " ++ ljust name max_width ++ " " ++ cmd.short_doc

/-- One iteration of the loop of `HelpFormatter._add_subcommands_to_page`:
skip alias entries, shorten the entry, bump the count, run the page check
(before the append, so the entry lands whole on whichever page is current
afterwards), append. -/
def addEntryStep (cfg : Config) (max_width : Nat) (st : PageState)
    (e : String × Command) : Except PyErr PageState :=
  if e.1 ∈ e.2.aliases then pure st
  else do
    let shortened ← shorten cfg.width (entryText max_width e.1 e.2)
    let st := checkNewPage { st with count := st.count + shortened.length }
    pure { st with current_page := st.current_page ++ [shortened] }

/-- `HelpFormatter._add_subcommands_to_page`. -/
def addSubcommandsToPage (cfg : Config) (max_width : Nat)
    (commands : List (String × Command)) (st : PageState) : Except PyErr PageState :=
  commands.foldlM (addEntryStep cfg max_width) st

/-- One iteration of the `groupby` loop of `HelpFormatter.format` (bot
branch): nonempty groups get their category header appended (with count bump
and page check), then the group members are rendered. -/
def formatGroupStep (cfg : Config) (max_width : Nat) (st : PageState)
    (kg : String × List (String × Command)) : Except PyErr PageState :=
  let st := if kg.2.length > 0 then
      checkNewPage { st with current_page := st.current_page ++ [kg.1],
                             count := st.count + kg.1.length }
    else st
  addSubcommandsToPage cfg max_width kg.2 st

/-- The opening of `HelpFormatter.format`: fresh state, then the description
portion (if any), then — when the target is not the bot — the signature and
the long-doc section with its explicit page check. -/
def formatHeaderState (ctx : Ctx) (isBot : Bool) (cmd : Command) : PageState :=
  let st : PageState := { pages := [], current_page := [pageFence], count := 4 }
  let st := if cmd.description ≠ "" then
      { st with current_page := st.current_page ++ [cmd.description, ""],
                count := st.count + cmd.description.length }
    else st
  if !isBot then
    let signature := getCommandSignature ctx cmd
    let st := { st with count := st.count + 2 + signature.length,
                        current_page := st.current_page ++ [signature, ""] }
    if cmd.help ≠ "" then
      checkNewPage { st with count := st.count + 2 + cmd.help.length,
                             current_page := st.current_page ++ [cmd.help, ""] }
    else st
  else st

/-- The closing lines of `HelpFormatter.format`: a blank separator, the count
bump and page check for the ending note, then the note itself. -/
def formatFooterState (ctx : Ctx) (st : PageState) : PageState :=
  let st := { st with current_page := st.current_page ++ [""] }
  let ending_note := getEndingNote ctx
  let st := checkNewPage { st with count := st.count + ending_note.length }
  { st with current_page := st.current_page ++ [ending_note] }

/-- `HelpFormatter.format`, producing the pages as line lists (joined by
`format` below).  `isBot` models the identity test `self.command is
self.context.bot`; `cmd.subcommands` models `isinstance(self.command,
GroupMixin)` and `.commands`. -/
def formatPages (cfg : Config) (ctx : Ctx) (isBot : Bool) (cmd : Command) :
    Except PyErr (List (List String)) := do
  let st := formatHeaderState ctx isBot cmd
  match cmd.subcommands with
  | none =>
    return st.pages ++ [st.current_page ++ [pageFence]]
  | some items => do
    let max_width ← maxNameSize cmd
    let st ←
      if isBot then do
        let data ← filterCommandList cfg ctx items
        (categoryGroups data).foldlM (formatGroupStep cfg max_width) st
      else do
        let st := { st with current_page := st.current_page ++ ["Commands:"],
                            count := st.count + 1 + "Commands:".length }
        let data ← filterCommandList cfg ctx items
        addSubcommandsToPage cfg max_width data st
    let st := formatFooterState ctx st
    if st.current_page.length > 1 then
      return st.pages ++ [st.current_page ++ [pageFence]]
    else
      return st.pages

/-- `HelpFormatter.format` (as called through `format_help_for`): the list of
finished page strings. -/
def format (cfg : Config) (ctx : Ctx) (isBot : Bool) (cmd : Command) :
    Except PyErr (List String) :=
  (formatPages cfg ctx isBot cmd).map (fun pls => pls.map (strJoin "\n"))

/-- The pages of a formatting run, or `[]` if it raised. -/
def pagesOf (r : Except PyErr (List String)) : List String :=
  match r with
  | .ok l => l
  | .error _ => []

deriving instance DecidableEq for Except

/-! ### Definitions taken from the specification text (for comparison)

These follow the wording of the spec, not the source; each is compared with
the corresponding source-derived definition in a theorem below. -/

/-- Spec wording for the line wrapper (section 4.1): standard greedy word
wrap; words are maximal non-whitespace runs; a line takes as many
space-separated words as fit in `width`; only a single word longer than
`width` is hard-split.  Fuel as elsewhere (total input length suffices). -/
def specWords : List Char → List (List Char)
  | [] => []
  | c :: cs =>
    if isPyWs c then specWords cs
    else
      match specWords cs, cs with
      | w :: ws, d :: _ => if isPyWs d then [c] :: w :: ws else (c :: w) :: ws
      | _, _ => [[c]]

/-- Greedy line packing for `specWrap`. -/
def specPackGo (w : Nat) : Nat → List (List Char) → List Char → List (List Char)
  | 0, _, cur => if cur = [] then [] else [cur]
  | _ + 1, [], cur => if cur = [] then [] else [cur]
  | fuel + 1, word :: ws, cur =>
    if cur = [] then
      if word.length ≤ w then specPackGo w fuel ws word
      else word.take w :: specPackGo w fuel (word.drop w :: ws) []
    else
      if cur.length + 1 + word.length ≤ w then specPackGo w fuel ws (cur ++ ' ' :: word)
      else cur :: specPackGo w fuel (word :: ws) []

/-- Spec `wrap(text, width)`. -/
def specWrap (w : Nat) (text : String) : List String :=
  let words := specWords text.data
  (specPackGo w (sumLen words + words.length + 1) words []).map String.mk

/-- Spec `shorten(text, width)` exactly as the claim states it: wrap, then
keep only the first line, discarding the rest, with no ellipsis or
truncation indicator appended. -/
def specShorten (w : Nat) (text : String) : String :=
  match specWrap w text with
  | [] => ""
  | l :: _ => l

/-- The parameter-token rendering as worded in the claim for the signature
(`name=default`, `name...`, underscores to hyphens). -/
def specParamTok (np : String × Param) : String :=
  let n := pyReplace np.1 "_" "-"
  match np.2.default with
  | some d => n ++ "=" ++ d
  | none => if np.2.var_positional then n ++ "..." else n

/-- Tokens appended one after another, each preceded by one space (the
"space-joined after the name portion" of the claim). -/
def concatTokens : List String → String
  | [] => ""
  | t :: ts => " " ++ t ++ concatTokens ts

/-- The signature exactly as the claim words it: prefix concatenated with
`name` alone, or with `name[alias1|alias2|...]` when aliases exist, then
space-joined parameter tokens. -/
def specSignature (ctx : Ctx) (cmd : Command) : String :=
  let p := cleanPfx ctx
  let base :=
    if cmd.aliases.length > 0 then
      p ++ cmd.name ++ "[" ++ strJoin "|" cmd.aliases ++ "]"
    else p ++ cmd.name
  base ++ concatTokens (cmd.clean_params.map specParamTok)

/-- The signature as amended: when aliases exist the bracket group wraps the
name together with the aliases, pipe-separated (`prefix[name|alias1|...]`). -/
def specSignatureAmended (ctx : Ctx) (cmd : Command) : String :=
  let p := cleanPfx ctx
  let base :=
    if cmd.aliases.length > 0 then
      p ++ "[" ++ cmd.name ++ "|" ++ strJoin "|" cmd.aliases ++ "]"
    else p ++ cmd.name
  base ++ concatTokens (cmd.clean_params.map specParamTok)

/-- The rollover check exactly as the claim words it: close the page when the
count strictly exceeds the configured `page_size_limit` (default 2000), and
reset the counter to the length of the fence. -/
def claimedCheckNewPage (page_size_limit : Nat) (st : PageState) : PageState :=
  if st.count > page_size_limit then
    { pages := st.pages ++ [st.current_page ++ [pageFence]],
      current_page := [pageFence],
      count := pageFence.length }
  else st

/-! ### Concrete inputs used by counterexamples and witnesses -/

def ctx0 : Ctx := { pfx := "!", botMention := "<@1>", botName := "bot" }

def cfg0 : Config := { show_hidden := false, show_check_faiure := false, width := 80 }

def okRun : Ctx → Except PyErr Bool := fun _ => .ok true

/-- A childless command with help text (the leaf scenario). -/
def pingCmd : Command :=
  .mk "ping" [] "Replies pong." "" "Replies pong." none false okRun [] none

/-- A non-root group holding `pingCmd`. -/
def grpPing : Command :=
  .mk "grp" [] "" "" "" none false okRun [] (some [("ping", pingCmd)])

/-- A 2500-character description. -/
def bigDesc : String := String.mk (List.replicate 2500 'a')

/-- A childless command whose description alone dwarfs any page budget. -/
def bigCmd : Command := .mk "big" [] "" bigDesc "" none false okRun [] none

/-- The single page `format` produces for `bigCmd`. -/
def c1page : String := strJoin "\n" ["```", bigDesc, "", "!big", "", "```"]

/-- Twenty four-letter words: wraps to two lines at width 80. -/
def c3text : String := strJoin " " (List.replicate 20 "aaaa")

/-- A command whose check raises (models a check body raising CheckFailure). -/
def boomCmd : Command :=
  .mk "boom" [] "goes boom" "" "" none false (fun _ => .error .checkFailure) [] none

/-- A non-root group holding `boomCmd`. -/
def grpBoom : Command := .mk "g" [] "" "" "" none false okRun [] (some [("boom", boomCmd)])

/-- A command whose check returns False (fails cleanly, without raising). -/
def noCmd : Command :=
  .mk "no" [] "not allowed" "" "" none false (fun _ => .ok false) [] none

/-- A command with aliases and parameters, for the signature claims. -/
def sigCmd : Command :=
  .mk "help" ["h"] "" "" "" none false okRun
    [("member_name", { default := none, var_positional := false }),
     ("rest", { default := none, var_positional := true }),
     ("n", { default := some "3", var_positional := false })] none

/-- Helper: a leaf command named `n` in the given cog. -/
def catCmd (n : String) (cog : Option String) : Command :=
  .mk n [] (n ++ " doc") "" "" cog false okRun [] none

/-- Three entries with categories Zeta, Alpha, and none (claim C5's example). -/
def c5data : List (String × Command) :=
  [("z", catCmd "z" (some "Zeta")), ("a", catCmd "a" (some "Alpha")), ("n", catCmd "n" none)]

/-- Two entries: one whose cog label starts with a zero-width space followed
by `Z` (so its key sorts after the sentinel), one with no cog. -/
def c5dataZ : List (String × Command) :=
  [("w", catCmd "w" (some "​Zcat")), ("n", catCmd "n" none)]

/-- An alias entry left behind after its primary name was removed
(`GroupMixin.remove_command` removes only the primary key and leaves alias
keys in the mapping): the key `go` is in the command's own aliases, so the
rendering loop skips it, while its cog still produces a header. -/
def runAlias : Command := .mk "run" ["go"] "runs" "" "" (some "X") false okRun [] none

/-- A root catalog whose only surviving entry for cog `X` is an alias key. -/
def botAlias : Command := .mk "bot" [] "" "" "" none false okRun [] (some [("go", runAlias)])

/-- A root catalog (or group) with an empty commands mapping. -/
def emptyBot : Command := .mk "bot" [] "" "" "" none false okRun [] (some [])

/-- The ending note for `ctx0`. -/
def note0 : String :=
  "Type !help command for more info on a command.\n" ++
    "You can also type !help category for more info on a category."

/-! ### Invariant shapes used by the page theorems -/

/-- A well-formed finished page: a fence line, some middle lines, a fence line. -/
def GoodPage (pl : List String) : Prop :=
  ∃ mid, pl = pageFence :: (mid ++ [pageFence])

/-- The builder invariant: the current page starts with the fence and every
finished page is well formed. -/
def StInv (st : PageState) : Prop :=
  (∃ rest, st.current_page = pageFence :: rest) ∧ ∀ pl ∈ st.pages, GoodPage pl

/-- The string `e` has been placed as one whole line: either inside a finished
page, or inside the current page, which then has at least two lines (so the
final flush cannot drop it). -/
def EntryInPage (e : String) (st : PageState) : Prop :=
  (∃ pl ∈ st.pages, e ∈ pl) ∨ (e ∈ st.current_page ∧ 2 ≤ st.current_page.length)

/-! ### Helper lemmas -/

theorem strJoin_cons (s a : String) (l : List String) (h : l ≠ []) :
    strJoin s (a :: l) = a ++ s ++ strJoin s l := by
  cases l with
  | nil => exact absurd rfl h
  | cons x xs => rfl

theorem strJoin_concat (s b : String) (l : List String) (h : l ≠ []) :
    strJoin s (l ++ [b]) = strJoin s l ++ s ++ b := by
  induction l with
  | nil => exact absurd rfl h
  | cons x xs ih =>
    cases xs with
    | nil => rfl
    | cons y ys =>
      rw [List.cons_append, strJoin_cons s x ((y :: ys) ++ [b]) (by simp),
        ih (by simp), strJoin_cons s x (y :: ys) (by simp)]
      simp [String.append_assoc]

theorem checkNewPage_stinv {st : PageState} (h : StInv st) : StInv (checkNewPage st) := by
  obtain ⟨⟨rest, hc⟩, hp⟩ := h
  unfold checkNewPage
  split
  · refine ⟨⟨[], rfl⟩, ?_⟩
    intro pl hpl
    rcases List.mem_append.mp hpl with h1 | h1
    · exact hp pl h1
    · rcases List.mem_singleton.mp h1 with rfl
      exact ⟨rest, by rw [hc]; rfl⟩
  · exact ⟨⟨rest, hc⟩, hp⟩

theorem checkNewPage_entry {e : String} {st : PageState} (h : EntryInPage e st) :
    EntryInPage e (checkNewPage st) := by
  unfold checkNewPage
  split
  · rcases h with ⟨pl, hpl, he⟩ | ⟨he, _⟩
    · exact Or.inl ⟨pl, by simp [hpl], he⟩
    · exact Or.inl ⟨st.current_page ++ [pageFence], by simp, List.mem_append_left _ he⟩
  · exact h

theorem stinv_append {pages : List (List String)} {cur : List String} {n m : Nat} (ls : List String)
    (h : StInv ⟨pages, cur, n⟩) : StInv ⟨pages, cur ++ ls, m⟩ := by
  obtain ⟨⟨rest, hc⟩, hp⟩ := h
  exact ⟨⟨rest ++ ls, by simp_all⟩, hp⟩

theorem entry_append {e : String} {pages : List (List String)} {cur : List String} {n m : Nat} (ls : List String)
    (h : EntryInPage e ⟨pages, cur, n⟩) : EntryInPage e ⟨pages, cur ++ ls, m⟩ := by
  rcases h with ⟨pl, hpl, he⟩ | ⟨he, hlen⟩
  · exact Or.inl ⟨pl, hpl, he⟩
  · exact Or.inr ⟨List.mem_append_left _ he, by simp only [List.length_append] at hlen ⊢; omega⟩

theorem stinv_count {pages : List (List String)} {cur : List String} {n m : Nat}
    (h : StInv ⟨pages, cur, n⟩) : StInv ⟨pages, cur, m⟩ := h

theorem entry_count {e : String} {pages : List (List String)} {cur : List String} {n m : Nat}
    (h : EntryInPage e ⟨pages, cur, n⟩) : EntryInPage e ⟨pages, cur, m⟩ := h

/-- Invariant preservation through an `Except`-valued left fold. -/
theorem foldlM_ex_inv {α : Type} (Q : PageState → Prop)
    (f : PageState → α → Except PyErr PageState)
    (hf : ∀ st a st', Q st → f st a = .ok st' → Q st') :
    ∀ (l : List α) (st st' : PageState), Q st → List.foldlM f st l = .ok st' → Q st'
  | [], st, st', hq, hfold => by
    simp only [List.foldlM] at hfold
    cases hfold
    exact hq
  | a :: l, st, st', hq, hfold => by
    simp only [List.foldlM] at hfold
    cases hstep : f st a with
    | error err => rw [hstep] at hfold; simp [Bind.bind, Except.bind] at hfold
    | ok st₁ =>
      rw [hstep] at hfold
      simp only [Bind.bind, Except.bind] at hfold
      exact foldlM_ex_inv Q f hf l st₁ st' (hf st a st₁ hq hstep) hfold

/-- Establishing a property at one designated list element of an
`Except`-valued left fold, with a side invariant `Q` that holds throughout and
a property `P` preserved once established. -/
theorem foldlM_ex_establish {α : Type} (Q P : PageState → Prop)
    (f : PageState → α → Except PyErr PageState)
    (hQ : ∀ st a st', Q st → f st a = .ok st' → Q st')
    (hP : ∀ st a st', P st → f st a = .ok st' → P st')
    (a₀ : α) (hEst : ∀ st st', Q st → f st a₀ = .ok st' → P st') :
    ∀ (l : List α) (st st' : PageState), Q st → a₀ ∈ l →
      List.foldlM f st l = .ok st' → P st'
  | [], _, _, _, hmem, _ => absurd hmem (List.not_mem_nil a₀)
  | a :: l, st, st', hq, hmem, hfold => by
    simp only [List.foldlM] at hfold
    cases hstep : f st a with
    | error err => rw [hstep] at hfold; simp [Bind.bind, Except.bind] at hfold
    | ok st₁ =>
      rw [hstep] at hfold
      simp only [Bind.bind, Except.bind] at hfold
      rcases List.mem_cons.mp hmem with rfl | hmem'
      · exact foldlM_ex_inv P f hP l st₁ st' (hEst st st₁ hq hstep) hfold
      · exact foldlM_ex_establish Q P f hQ hP a₀ hEst l st₁ st' (hQ st a st₁ hq hstep) hmem' hfold

theorem stinv_append2 {st : PageState} (ls : List String) (m : Nat) (h : StInv st) :
    StInv { st with current_page := st.current_page ++ ls, count := m } := by
  obtain ⟨⟨rest, hc⟩, hp⟩ := h
  exact ⟨⟨rest ++ ls, by simp [hc]⟩, hp⟩

theorem stinv_bump {st : PageState} (m : Nat) (h : StInv st) :
    StInv { st with count := m } := h

theorem entry_append2 {e : String} {st : PageState} (ls : List String) (m : Nat)
    (h : EntryInPage e st) :
    EntryInPage e { st with current_page := st.current_page ++ ls, count := m } := by
  rcases h with ⟨pl, hpl, he⟩ | ⟨he, hlen⟩
  · exact Or.inl ⟨pl, hpl, he⟩
  · exact Or.inr ⟨List.mem_append_left _ he, by simp only [List.length_append]; omega⟩

theorem entry_bump {e : String} {st : PageState} (m : Nat) (h : EntryInPage e st) :
    EntryInPage e { st with count := m } := h

theorem addEntryStep_stinv {cfg : Config} {mw : Nat} {st st' : PageState}
    {a : String × Command} (hq : StInv st) (h : addEntryStep cfg mw st a = .ok st') :
    StInv st' := by
  unfold addEntryStep at h
  split at h
  · cases h; exact hq
  · cases hsh : shorten cfg.width (entryText mw a.1 a.2) with
    | error err => rw [hsh] at h; simp [Bind.bind, Except.bind] at h
    | ok sh =>
      rw [hsh] at h
      simp only [Bind.bind, Except.bind, pure, Except.pure] at h
      cases h
      exact stinv_append2 [sh] _ (checkNewPage_stinv (stinv_bump _ hq))

theorem addEntryStep_entry {cfg : Config} {mw : Nat} {e : String} {st st' : PageState}
    {a : String × Command} (hp : EntryInPage e st) (h : addEntryStep cfg mw st a = .ok st') :
    EntryInPage e st' := by
  unfold addEntryStep at h
  split at h
  · cases h; exact hp
  · cases hsh : shorten cfg.width (entryText mw a.1 a.2) with
    | error err => rw [hsh] at h; simp [Bind.bind, Except.bind] at h
    | ok sh =>
      rw [hsh] at h
      simp only [Bind.bind, Except.bind, pure, Except.pure] at h
      cases h
      exact entry_append2 [sh] _ (checkNewPage_entry (entry_bump _ hp))

theorem addEntryStep_establish {cfg : Config} {mw : Nat} {name : String} {c : Command}
    {e : String} {st st' : PageState} (hq : StInv st)
    (halias : name ∉ c.aliases)
    (hsh : shorten cfg.width (entryText mw name c) = .ok e)
    (h : addEntryStep cfg mw st (name, c) = .ok st') :
    EntryInPage e st' := by
  unfold addEntryStep at h
  split at h
  · exact absurd (by assumption) halias
  · rw [hsh] at h
    simp only [Bind.bind, Except.bind, pure, Except.pure] at h
    cases h
    have h1 : StInv (checkNewPage { st with count := st.count + e.length }) :=
      checkNewPage_stinv (stinv_bump _ hq)
    obtain ⟨⟨rest, hc⟩, _⟩ := h1
    refine Or.inr ⟨List.mem_append_right _ (List.mem_singleton.mpr rfl), ?_⟩
    simp only [List.length_append, hc, List.length_cons, List.length_singleton]
    omega

theorem addSub_stinv {cfg : Config} {mw : Nat} {l : List (String × Command)}
    {st st' : PageState} (hq : StInv st)
    (h : addSubcommandsToPage cfg mw l st = .ok st') : StInv st' :=
  foldlM_ex_inv StInv _ (fun _ _ _ hs hstep => addEntryStep_stinv hs hstep) l st st' hq h

theorem addSub_entry {cfg : Config} {mw : Nat} {e : String} {l : List (String × Command)}
    {st st' : PageState} (hp : EntryInPage e st)
    (h : addSubcommandsToPage cfg mw l st = .ok st') : EntryInPage e st' :=
  foldlM_ex_inv (EntryInPage e) _ (fun _ _ _ hs hstep => addEntryStep_entry hs hstep) l st st' hp h

theorem addSub_establish {cfg : Config} {mw : Nat} {name : String} {c : Command}
    {e : String} {l : List (String × Command)} {st st' : PageState}
    (hq : StInv st) (hmem : (name, c) ∈ l) (halias : name ∉ c.aliases)
    (hsh : shorten cfg.width (entryText mw name c) = .ok e)
    (h : addSubcommandsToPage cfg mw l st = .ok st') : EntryInPage e st' :=
  foldlM_ex_establish StInv (EntryInPage e) (addEntryStep cfg mw)
    (fun _ _ _ hs hstep => addEntryStep_stinv hs hstep)
    (fun _ _ _ hs hstep => addEntryStep_entry hs hstep)
    (name, c)
    (fun _ _ hs hstep => addEntryStep_establish hs halias hsh hstep)
    l st st' hq hmem h

theorem formatGroupStep_stinv {cfg : Config} {mw : Nat} {st st' : PageState}
    {kg : String × List (String × Command)} (hq : StInv st)
    (h : formatGroupStep cfg mw st kg = .ok st') : StInv st' := by
  unfold formatGroupStep at h
  split at h
  · exact addSub_stinv (checkNewPage_stinv (stinv_append2 [kg.1] _ hq)) h
  · exact addSub_stinv hq h

theorem formatGroupStep_entry {cfg : Config} {mw : Nat} {e : String} {st st' : PageState}
    {kg : String × List (String × Command)} (hp : EntryInPage e st)
    (h : formatGroupStep cfg mw st kg = .ok st') : EntryInPage e st' := by
  unfold formatGroupStep at h
  split at h
  · exact addSub_entry (checkNewPage_entry (entry_append2 [kg.1] _ hp)) h
  · exact addSub_entry hp h

theorem formatGroupStep_establish {cfg : Config} {mw : Nat} {name : String} {c : Command}
    {e : String} {st st' : PageState} {kg : String × List (String × Command)}
    (hq : StInv st) (hmem : (name, c) ∈ kg.2) (halias : name ∉ c.aliases)
    (hsh : shorten cfg.width (entryText mw name c) = .ok e)
    (h : formatGroupStep cfg mw st kg = .ok st') : EntryInPage e st' := by
  unfold formatGroupStep at h
  split at h
  · exact addSub_establish (checkNewPage_stinv (stinv_append2 [kg.1] _ hq)) hmem halias hsh h
  · exact addSub_establish hq hmem halias hsh h

theorem mem_insortBy {α : Type} {keyLt : α → α → Bool} {x a : α} :
    ∀ {l : List α}, a ∈ insortBy keyLt x l ↔ a = x ∨ a ∈ l := by
  intro l
  induction l with
  | nil => simp [insortBy]
  | cons y ys ih =>
    unfold insortBy
    split
    · rw [List.mem_cons, ih, List.mem_cons]
      tauto
    · simp

theorem mem_pySorted {α : Type} {keyLt : α → α → Bool} {a : α} :
    ∀ {l : List α}, a ∈ pySorted keyLt l ↔ a ∈ l := by
  intro l
  induction l with
  | nil => simp [pySorted]
  | cons x xs ih =>
    unfold pySorted
    rw [mem_insortBy]
    simp [ih]

theorem groupRuns_cover {α : Type} (key : α → String) :
    ∀ (l : List α) (x : α), x ∈ l → ∃ kg ∈ groupRuns key l, x ∈ kg.2 := by
  intro l
  induction l with
  | nil => intro x hx; exact absurd hx (List.not_mem_nil x)
  | cons a rest ih =>
    intro x hx
    unfold groupRuns
    rcases List.mem_cons.mp hx with rfl | hx'
    · cases hg : groupRuns key rest with
      | nil => exact ⟨(key x, [x]), by simp, by simp⟩
      | cons kg gs =>
        obtain ⟨k, g⟩ := kg
        by_cases hk : key x = k
        · exact ⟨(key x, x :: g), by simp [hk], by simp⟩
        · exact ⟨(key x, [x]), by simp [hk], by simp⟩
    · obtain ⟨kg₀, hkg₀, hxin⟩ := ih x hx'
      cases hg : groupRuns key rest with
      | nil => rw [hg] at hkg₀; exact absurd hkg₀ (List.not_mem_nil kg₀)
      | cons kg gs =>
        obtain ⟨k, g⟩ := kg
        rw [hg] at hkg₀
        by_cases hk : key a = k
        · rcases List.mem_cons.mp hkg₀ with rfl | hrest
          · exact ⟨(key a, a :: g), by simp [hk], by simp at hxin ⊢; tauto⟩
          · exact ⟨kg₀, by simp only [if_pos hk]; exact List.mem_cons_of_mem _ hrest, hxin⟩
        · exact ⟨kg₀, by simp only [if_neg hk]; exact List.mem_cons_of_mem _ hkg₀, hxin⟩

theorem groupRuns_sound {α : Type} (key : α → String) :
    ∀ (l : List α) (kg : String × List α), kg ∈ groupRuns key l →
      kg.2 ≠ [] ∧ ∃ x ∈ l, key x = kg.1 := by
  intro l
  induction l with
  | nil => intro kg h; simp [groupRuns] at h
  | cons a rest ih =>
    intro kg h
    unfold groupRuns at h
    cases hg : groupRuns key rest with
    | nil =>
      rw [hg] at h
      rcases List.mem_singleton.mp h with rfl
      exact ⟨by simp, a, by simp⟩
    | cons kg' gs =>
      obtain ⟨k, g⟩ := kg'
      rw [hg] at h
      dsimp only at h
      by_cases hk : key a = k
      · rw [if_pos hk] at h
        rcases List.mem_cons.mp h with rfl | hrest
        · exact ⟨by simp, a, by simp⟩
        · obtain ⟨h1, x, hx, hkey⟩ := ih _ (by rw [hg]; exact List.mem_cons_of_mem _ hrest)
          exact ⟨h1, x, List.mem_cons_of_mem _ hx, hkey⟩
      · rw [if_neg hk] at h
        rcases List.mem_cons.mp h with rfl | hrest
        · exact ⟨by simp, a, by simp⟩
        · obtain ⟨h1, x, hx, hkey⟩ := ih _ (by rw [hg]; exact hrest)
          exact ⟨h1, x, List.mem_cons_of_mem _ hx, hkey⟩

theorem categoryGroups_cover {x : String × Command} {data : List (String × Command)}
    (hx : x ∈ data) : ∃ kg ∈ categoryGroups data, x ∈ kg.2 :=
  groupRuns_cover categoryOf _ x (mem_pySorted.mpr hx)

/-- Pages after a flush of the current page are all well formed. -/
theorem flush_good {st : PageState} (h : StInv st) :
    ∀ pl ∈ st.pages ++ [st.current_page ++ [pageFence]], GoodPage pl := by
  obtain ⟨⟨rest, hc⟩, hp⟩ := h
  intro pl hpl
  rcases List.mem_append.mp hpl with h1 | h1
  · exact hp pl h1
  · rcases List.mem_singleton.mp h1 with rfl
    exact ⟨rest, by rw [hc]; rfl⟩

theorem stinv_init : StInv ({ pages := [], current_page := [pageFence], count := 4 } : PageState) :=
  ⟨⟨[], rfl⟩, by simp⟩

theorem stinv_cons_head {pages : List (List String)} {rest : List String} {n : Nat}
    (h2 : ∀ pl ∈ pages, GoodPage pl) : StInv ⟨pages, pageFence :: rest, n⟩ :=
  ⟨⟨rest, rfl⟩, h2⟩

theorem formatHeaderState_stinv (ctx : Ctx) (isBot : Bool) (cmd : Command) :
    StInv (formatHeaderState ctx isBot cmd) := by
  unfold formatHeaderState
  dsimp only
  repeat' split
  all_goals first
    | exact stinv_cons_head (by simp)
    | (apply checkNewPage_stinv; exact stinv_cons_head (by simp))


theorem formatFooterState_stinv (ctx : Ctx) {st : PageState} (h : StInv st) :
    StInv (formatFooterState ctx st) := by
  unfold formatFooterState
  dsimp only
  exact stinv_append2 _ _ (checkNewPage_stinv (stinv_append2 _ _ h))

theorem formatFooterState_entry (ctx : Ctx) {e : String} {st : PageState}
    (h : EntryInPage e st) : EntryInPage e (formatFooterState ctx st) := by
  unfold formatFooterState
  dsimp only
  exact entry_append2 _ _ (checkNewPage_entry (entry_append2 _ _ h))

theorem good_final {st : PageState} (hQ : StInv st) :
    ∀ pl ∈ (if st.current_page.length > 1 then
        st.pages ++ [st.current_page ++ [pageFence]] else st.pages), GoodPage pl := by
  split
  · exact flush_good hQ
  · exact hQ.2

theorem entry_final {e : String} {st : PageState} (hP : EntryInPage e st) :
    ∃ pl ∈ (if st.current_page.length > 1 then
        st.pages ++ [st.current_page ++ [pageFence]] else st.pages), e ∈ pl := by
  rcases hP with ⟨pl, hpl, he⟩ | ⟨he, hlen⟩
  · split
    · exact ⟨pl, List.mem_append_left _ hpl, he⟩
    · exact ⟨pl, hpl, he⟩
  · rw [if_pos (by omega)]
    exact ⟨st.current_page ++ [pageFence], by simp, List.mem_append_left _ he⟩

/-- Every page that a successful `formatPages` run returns is well formed:
fence line, middle lines, fence line. -/
theorem formatPages_good {cfg : Config} {ctx : Ctx} {isBot : Bool} {cmd : Command}
    {pls : List (List String)} (h : formatPages cfg ctx isBot cmd = .ok pls) :
    ∀ pl ∈ pls, GoodPage pl := by
  unfold formatPages at h
  have hH := formatHeaderState_stinv ctx isBot cmd
  cases hsub : cmd.subcommands with
  | none =>
    rw [hsub] at h
    dsimp only at h
    simp only [pure, Except.pure] at h
    cases h
    exact flush_good hH
  | some items =>
    rw [hsub] at h
    dsimp only at h
    cases hmw : maxNameSize cmd with
    | error err => rw [hmw] at h; simp [Bind.bind, Except.bind] at h
    | ok mw =>
      rw [hmw] at h
      simp only [Bind.bind, Except.bind] at h
      cases isBot with
      | true =>
        simp only [if_true] at h
        cases hfil : filterCommandList cfg ctx items with
        | error err => rw [hfil] at h; simp [Except.bind] at h
        | ok data =>
          rw [hfil] at h
          simp only [Except.bind] at h
          cases hfold : List.foldlM (formatGroupStep cfg mw) (formatHeaderState ctx true cmd)
              (categoryGroups data) with
          | error err => rw [hfold] at h; simp at h
          | ok stF =>
            rw [hfold] at h
            simp only [pure, Except.pure] at h
            have hF : StInv stF :=
              foldlM_ex_inv StInv _ (fun _ _ _ hs hstep => formatGroupStep_stinv hs hstep)
                _ _ _ hH hfold
            have hFoot := formatFooterState_stinv ctx hF
            split at h
            · cases h
              exact fun pl hpl => good_final hFoot pl (by rw [if_pos (by assumption)]; exact hpl)
            · cases h
              exact fun pl hpl => good_final hFoot pl (by rw [if_neg (by assumption)]; exact hpl)
      | false =>
        simp only [if_false, Bool.false_eq_true] at h
        cases hfil : filterCommandList cfg ctx items with
        | error err => rw [hfil] at h; simp [Except.bind] at h
        | ok data =>
          rw [hfil] at h
          simp only [Except.bind] at h
          cases hadd : addSubcommandsToPage cfg mw data
              { formatHeaderState ctx false cmd with
                current_page := (formatHeaderState ctx false cmd).current_page ++ ["Commands:"],
                count := (formatHeaderState ctx false cmd).count + 1 + "Commands:".length } with
          | error err => rw [hadd] at h; simp at h
          | ok stF =>
            rw [hadd] at h
            simp only [pure, Except.pure] at h
            have hF : StInv stF := addSub_stinv (stinv_append2 _ _ hH) hadd
            have hFoot := formatFooterState_stinv ctx hF
            split at h
            · cases h
              exact fun pl hpl => good_final hFoot pl (by rw [if_pos (by assumption)]; exact hpl)
            · cases h
              exact fun pl hpl => good_final hFoot pl (by rw [if_neg (by assumption)]; exact hpl)

/-- A rendered entry line lands, whole, inside one of the returned pages. -/
theorem formatPages_entry {cfg : Config} {ctx : Ctx} {isBot : Bool} {cmd : Command}
    {items data : List (String × Command)} {mw : Nat} {name : String} {c : Command}
    {e : String} {pls : List (List String)}
    (hsub : cmd.subcommands = some items)
    (hfil : filterCommandList cfg ctx items = .ok data)
    (hmw : maxNameSize cmd = .ok mw)
    (hmem : (name, c) ∈ data)
    (halias : name ∉ c.aliases)
    (hsh : shorten cfg.width (entryText mw name c) = .ok e)
    (h : formatPages cfg ctx isBot cmd = .ok pls) :
    ∃ pl ∈ pls, e ∈ pl := by
  unfold formatPages at h
  have hH := formatHeaderState_stinv ctx isBot cmd
  rw [hsub] at h
  dsimp only at h
  rw [hmw] at h
  simp only [Bind.bind, Except.bind] at h
  cases isBot with
  | true =>
    simp only [if_true] at h
    rw [hfil] at h
    simp only [Except.bind] at h
    cases hfold : List.foldlM (formatGroupStep cfg mw) (formatHeaderState ctx true cmd)
        (categoryGroups data) with
    | error err => rw [hfold] at h; simp at h
    | ok stF =>
      rw [hfold] at h
      simp only [pure, Except.pure] at h
      obtain ⟨kg, hkg, hmemg⟩ := categoryGroups_cover hmem
      have hP : EntryInPage e stF :=
        foldlM_ex_establish StInv (EntryInPage e) (formatGroupStep cfg mw)
          (fun _ _ _ hs hstep => formatGroupStep_stinv hs hstep)
          (fun _ _ _ hs hstep => formatGroupStep_entry hs hstep)
          kg (fun _ _ hs hstep => formatGroupStep_establish hs hmemg halias hsh hstep)
          _ _ _ hH hkg hfold
      have hPF := formatFooterState_entry ctx hP
      split at h
      · cases h
        obtain ⟨pl, hpl, he⟩ := entry_final hPF
        rw [if_pos (by assumption)] at hpl
        exact ⟨pl, hpl, he⟩
      · cases h
        obtain ⟨pl, hpl, he⟩ := entry_final hPF
        rw [if_neg (by assumption)] at hpl
        exact ⟨pl, hpl, he⟩
  | false =>
    simp only [if_false, Bool.false_eq_true] at h
    rw [hfil] at h
    simp only [Except.bind] at h
    cases hadd : addSubcommandsToPage cfg mw data
        { formatHeaderState ctx false cmd with
          current_page := (formatHeaderState ctx false cmd).current_page ++ ["Commands:"],
          count := (formatHeaderState ctx false cmd).count + 1 + "Commands:".length } with
    | error err => rw [hadd] at h; simp at h
    | ok stF =>
      rw [hadd] at h
      simp only [pure, Except.pure] at h
      have hP : EntryInPage e stF :=
        addSub_establish (stinv_append2 _ _ hH) hmem halias hsh hadd
      have hPF := formatFooterState_entry ctx hP
      split at h
      · cases h
        obtain ⟨pl, hpl, he⟩ := entry_final hPF
        rw [if_pos (by assumption)] at hpl
        exact ⟨pl, hpl, he⟩
      · cases h
        obtain ⟨pl, hpl, he⟩ := entry_final hPF
        rw [if_neg (by assumption)] at hpl
        exact ⟨pl, hpl, he⟩

theorem munge_no_nl (l : List Char) : '\n' ∉ mungeWhitespace l := by
  intro h
  simp only [mungeWhitespace, List.mem_map] at h
  obtain ⟨c, _, hc⟩ := h
  by_cases hw : isPyWs c
  · rw [if_pos hw] at hc
    exact absurd hc (by decide)
  · rw [if_neg hw] at hc
    subst hc
    exact hw (by decide)

theorem mem_takeWhile {α : Type} {p : α → Bool} {a : α} :
    ∀ {l : List α}, a ∈ l.takeWhile p → a ∈ l := by
  intro l
  induction l with
  | nil => simp
  | cons x xs ih =>
    intro h
    rw [List.takeWhile_cons] at h
    by_cases hp : p x
    · rw [if_pos hp] at h
      rcases List.mem_cons.mp h with rfl | h'
      · exact List.mem_cons_self _ _
      · exact List.mem_cons_of_mem _ (ih h')
    · rw [if_neg hp] at h
      exact absurd h (List.not_mem_nil a)

theorem mem_dropWhile {α : Type} {p : α → Bool} {a : α} :
    ∀ {l : List α}, a ∈ l.dropWhile p → a ∈ l := by
  intro l
  induction l with
  | nil => simp
  | cons x xs ih =>
    intro h
    rw [List.dropWhile_cons] at h
    by_cases hp : p x
    · rw [if_pos hp] at h
      exact List.mem_cons_of_mem _ (ih h)
    · rw [if_neg hp] at h
      exact h

theorem wordScanGo_chars {prevRev : List Char} :
    ∀ (fuel : Nat) (chunkRev rest : List Char) (c : Char),
      (c ∈ (wordScanGo prevRev fuel chunkRev rest).1 → c ∈ chunkRev ∨ c ∈ rest) ∧
      (c ∈ (wordScanGo prevRev fuel chunkRev rest).2 → c ∈ rest)
  | 0, chunkRev, rest, c => by
    constructor
    · intro h
      exact Or.inl (List.mem_reverse.mp h)
    · exact fun h => h
  | fuel + 1, chunkRev, [], c => by
    constructor
    · intro h
      exact Or.inl (List.mem_reverse.mp h)
    · intro h
      exact absurd h (List.not_mem_nil c)
  | fuel + 1, chunkRev, x :: xs, c => by
    unfold wordScanGo
    split
    · constructor
      · intro h
        exact Or.inl (List.mem_reverse.mp h)
      · exact fun h => h
    · constructor
      · intro h
        rcases (wordScanGo_chars fuel (x :: chunkRev) xs c).1 h with h1 | h1
        · rcases List.mem_cons.mp h1 with rfl | h2
          · exact Or.inr (List.mem_cons_self _ _)
          · exact Or.inl h2
        · exact Or.inr (List.mem_cons_of_mem _ h1)
      · intro h
        exact List.mem_cons_of_mem _ ((wordScanGo_chars fuel (x :: chunkRev) xs c).2 h)

theorem splitPyGo_chars :
    ∀ (fuel : Nat) (prevRev rest : List Char) (ch : List Char),
      ch ∈ splitPyGo prevRev fuel rest → ∀ c ∈ ch, c ∈ rest
  | 0, prevRev, rest, ch => by
    intro h
    exact absurd h (by simp [splitPyGo])
  | fuel + 1, prevRev, [], ch => by
    intro h
    exact absurd h (by simp [splitPyGo])
  | fuel + 1, prevRev, x :: xs, ch => by
    intro h c hc
    unfold splitPyGo at h
    split at h
    · rcases List.mem_cons.mp h with rfl | h'
      · exact mem_takeWhile hc
      · exact mem_dropWhile (splitPyGo_chars fuel _ _ ch h' c hc)
    · split at h
      · rcases List.mem_cons.mp h with rfl | h'
        · exact mem_takeWhile hc
        · exact mem_dropWhile (splitPyGo_chars fuel _ _ ch h' c hc)
      · rcases List.mem_cons.mp h with rfl | h'
        · rcases (wordScanGo_chars fuel [x] xs c).1 hc with h1 | h1
          · rcases List.mem_singleton.mp h1 with rfl
            exact List.mem_cons_self _ _
          · exact List.mem_cons_of_mem _ h1
        · have hc2 := splitPyGo_chars fuel _ _ ch h' c hc
          exact List.mem_cons_of_mem _ ((wordScanGo_chars fuel [x] xs c).2 hc2)

/-- Every character of every chunk of `splitChunks s` is a character of `s`. -/
theorem splitChunks_chars {s : List Char} {ch : List Char} (h : ch ∈ splitChunks s) :
    ∀ c ∈ ch, c ∈ s :=
  splitPyGo_chars _ _ _ ch h

theorem greedyTake_append (w : Nat) :
    ∀ (n : Nat) (l : List (List Char)),
      (greedyTake w n l).1 ++ (greedyTake w n l).2 = l
  | _, [] => rfl
  | n, ch :: rest => by
    unfold greedyTake
    split
    · simp [greedyTake_append w (n + ch.length) rest]
    · rfl

theorem popPlaceholder_no_nl (w : Nat) :
    ∀ (curRev : List (List Char)) (n : Nat) (l : List Char),
      (∀ ch ∈ curRev, '\n' ∉ ch) → popPlaceholder w curRev n = some l → '\n' ∉ l
  | [], n, l => by
    intro _ h
    exact absurd h (by simp [popPlaceholder])
  | lc :: restRev, n, l => by
    intro hch h
    unfold popPlaceholder at h
    split at h
    · cases h
      intro hnl
      rcases List.mem_append.mp hnl with h1 | h1
      · obtain ⟨ch, hch2, hc⟩ := List.mem_flatten.mp h1
        exact hch ch (List.mem_reverse.mp hch2) hc
      · exact absurd h1 (by decide)
    · exact popPlaceholder_no_nl w restRev (n - lc.length) l
        (fun ch hm => hch ch (List.mem_cons_of_mem _ hm)) h

theorem handleLongSplit_no_nl (w : Nat) {pr : List (List Char) × List (List Char)}
    (h1 : ∀ ch ∈ pr.1, '\n' ∉ ch) (h2 : ∀ ch ∈ pr.2, '\n' ∉ ch) :
    (∀ ch ∈ (handleLongSplit w pr).1, '\n' ∉ ch) ∧
      (∀ ch ∈ (handleLongSplit w pr).2, '\n' ∉ ch) := by
  unfold handleLongSplit
  cases hpr : pr.2 with
  | nil =>
    dsimp only
    exact ⟨h1, by simp⟩
  | cons ch rs =>
    have hch : '\n' ∉ ch := h2 ch (by rw [hpr]; exact List.mem_cons_self _ _)
    have hrs : ∀ x ∈ rs, '\n' ∉ x := fun x hx =>
      h2 x (by rw [hpr]; exact List.mem_cons_of_mem _ hx)
    dsimp only
    split
    · dsimp only
      constructor
      · intro x hx
        rcases List.mem_append.mp hx with h' | h'
        · exact h1 x h'
        · rcases List.mem_singleton.mp h' with rfl
          exact fun hc => hch (List.take_subset _ _ hc)
      · intro x hx
        rcases List.mem_cons.mp hx with rfl | h'
        · exact fun hc => hch (List.drop_subset _ _ hc)
        · exact hrs x h'
    · dsimp only
      refine ⟨h1, fun x hx => ?_⟩
      rcases List.mem_cons.mp hx with rfl | h'
      · exact hch
      · exact hrs x h'

theorem dropTrailingWs_subset {cur : List (List Char)} :
    ∀ ch ∈ dropTrailingWs cur, ch ∈ cur := by
  unfold dropTrailingWs
  split
  · split
    · exact fun ch hm => List.dropLast_subset _ hm
    · exact fun ch hm => hm
  · exact fun ch hm => hm

theorem wrapOneGo_no_nl (w : Nat) :
    ∀ (fuel : Nat) (chunks : List (List Char)) (l : List Char),
      (∀ ch ∈ chunks, '\n' ∉ ch) → wrapOneGo w fuel chunks = some l → '\n' ∉ l
  | 0, chunks, l => by
    intro _ h
    exact absurd h (by simp [wrapOneGo])
  | fuel + 1, [], l => by
    intro _ h
    exact absurd h (by simp [wrapOneGo])
  | fuel + 1, c :: cs, l => by
    intro hch h
    unfold wrapOneGo at h
    dsimp only at h
    have hgr := greedyTake_append w 0 (c :: cs)
    have hg1 : ∀ ch ∈ (greedyTake w 0 (c :: cs)).1, '\n' ∉ ch := fun ch hm =>
      hch ch (by rw [← hgr]; exact List.mem_append_left _ hm)
    have hg2 : ∀ ch ∈ (greedyTake w 0 (c :: cs)).2, '\n' ∉ ch := fun ch hm =>
      hch ch (by rw [← hgr]; exact List.mem_append_right _ hm)
    have hwl := handleLongSplit_no_nl w hg1 hg2
    have hcur : ∀ ch ∈ dropTrailingWs (handleLongSplit w (greedyTake w 0 (c :: cs))).1,
        '\n' ∉ ch :=
      fun ch hm => hwl.1 ch (dropTrailingWs_subset ch hm)
    cases hc : dropTrailingWs (handleLongSplit w (greedyTake w 0 (c :: cs))).1 with
    | nil =>
      rw [hc] at h
      dsimp only at h
      exact wrapOneGo_no_nl w fuel _ l hwl.2 h
    | cons a as =>
      rw [hc] at h
      rw [hc] at hcur
      dsimp only at h
      split at h
      · cases h
        intro hnl
        obtain ⟨ch, hm, hcm⟩ := List.mem_flatten.mp hnl
        exact hcur ch hm hcm
      · cases hpp : popPlaceholder w ((a :: as).reverse) (sumLen (a :: as)) with
        | some l' =>
          rw [hpp] at h
          cases h
          exact popPlaceholder_no_nl w _ _ _
            (fun ch hm => hcur ch (List.mem_reverse.mp hm)) hpp
        | none =>
          rw [hpp] at h
          cases h
          decide

/-- A successful `shorten` never contains a line separator: its result is one
single line. -/
theorem shorten_ok_no_nl {w : Nat} {t s : String} (h : shorten w t = .ok s) :
    '\n' ∉ s.data := by
  unfold shorten at h
  split at h
  · simp at h
  · cases h
    unfold wrapMaxOne
    dsimp only
    have hch : ∀ ch ∈ splitChunks (mungeWhitespace t.data), '\n' ∉ ch :=
      fun ch hm hc => munge_no_nl t.data (splitChunks_chars hm '\n' hc)
    cases hw : wrapOneGo w
        (sumLen (splitChunks (mungeWhitespace t.data)) +
          (splitChunks (mungeWhitespace t.data)).length + 1)
        (splitChunks (mungeWhitespace t.data)) with
    | none => simp [strJoin]
    | some l =>
      have : '\n' ∉ l := wrapOneGo_no_nl w _ _ l hch hw
      simpa [strJoin] using this

theorem goodPage_join {pl : List String} (h : GoodPage pl) :
    (∃ m, strJoin "\n" pl = "```\n" ++ m) ∧ (∃ m, strJoin "\n" pl = m ++ "\n```") := by
  obtain ⟨mid, rfl⟩ := h
  constructor
  · refine ⟨strJoin "\n" (mid ++ [pageFence]), ?_⟩
    rw [strJoin_cons _ _ _ (by simp)]
    rfl
  · refine ⟨strJoin "\n" (pageFence :: mid), ?_⟩
    rw [show pageFence :: (mid ++ [pageFence]) = (pageFence :: mid) ++ [pageFence] from rfl,
      strJoin_concat _ _ _ (by simp), String.append_assoc]
    rfl

theorem goodPage_join_ne {pl : List String} (h : GoodPage pl) :
    strJoin "\n" pl ≠ "" := by
  obtain ⟨m, hm⟩ := (goodPage_join h).1
  rw [hm]
  intro he
  have h2 := congrArg String.data he
  rw [String.data_append] at h2
  simp at h2

theorem strJoin_space_tokens : ∀ (a : String) (l : List String),
    strJoin " " (a :: l) = a ++ concatTokens l := by
  intro a l
  induction l generalizing a with
  | nil => simp [strJoin, concatTokens]
  | cons t ts ih =>
    rw [strJoin_cons _ _ _ (by simp), ih t]
    simp [concatTokens, String.append_assoc]

theorem strJoin_mem_length_le (sep : String) :
    ∀ (l : List String) (x : String), x ∈ l → x.length ≤ (strJoin sep l).length := by
  intro l
  induction l with
  | nil => intro x hx; exact absurd hx (List.not_mem_nil x)
  | cons y ys ih =>
    intro x hx
    cases ys with
    | nil =>
      rcases List.mem_singleton.mp hx with rfl
      exact Nat.le_refl _
    | cons z zs =>
      rw [strJoin_cons _ _ _ (by simp), String.length_append, String.length_append]
      rcases List.mem_cons.mp hx with rfl | h'
      · omega
      · have := ih x h'
        omega

/-! ### Claim theorems -/

/-- C1, counterexample: the claim bounds every returned page by
`page_size_limit + len(fence) + small constant` (2000 + 3 + overhead).  A
childless command whose description is 2500 characters long yields a single
page at least 2500 characters long: the description is appended with no page
check at all, so no constant bounds the overflow. -/
theorem c1_counterexample :
    format cfg0 ctx0 false bigCmd = .ok [c1page] ∧ 2500 ≤ c1page.length := by
  constructor
  · rfl
  · have hb : bigDesc.length = 2500 := by
      rw [show bigDesc.length = (List.replicate 2500 'a').length from rfl,
        List.length_replicate]
    have hm : bigDesc ∈ ["```", bigDesc, "", "!big", "", "```"] := by simp
    have hle := strJoin_mem_length_le "\n" _ _ hm
    rw [hb] at hle
    rw [show c1page = strJoin "\n" ["```", bigDesc, "", "!big", "", "```"] from rfl]
    exact hle

/-- C1 (amended): the length bound fails (see `c1_counterexample`: pages
holding a long description/help/signature/ending-note block exceed any fixed
budget, and the counter also undercounts newline separators), but the
emptiness half of the claim holds unconditionally: no returned page is ever
the empty string, since every page carries its opening and closing fence. -/
theorem c1_budget : ∀ (cfg : Config) (ctx : Ctx) (isBot : Bool) (cmd : Command)
    (ps : List String), format cfg ctx isBot cmd = .ok ps → ∀ p ∈ ps, p ≠ "" := by
  intro cfg ctx isBot cmd ps h p hp
  unfold format at h
  cases hfp : formatPages cfg ctx isBot cmd with
  | error err => rw [hfp] at h; simp [Except.map] at h
  | ok pls =>
    rw [hfp] at h
    simp only [Except.map] at h
    cases h
    obtain ⟨pl, hpl, rfl⟩ := List.mem_map.mp hp
    exact goodPage_join_ne (formatPages_good hfp pl hpl)

/-- Witness for C1: the leaf page for `pingCmd` is a nonempty string. -/
theorem c1_budget_witness : ("```\n!ping\n\nReplies pong.\n\n```" : String) ≠ "" :=
  c1_budget cfg0 ctx0 false pingCmd ["```\n!ping\n\nReplies pong.\n\n```"] rfl _
    (List.mem_singleton.mpr rfl)

/-- C2, counterexample: at a running count of 1950 the code already closes the
page (its threshold is the hard-coded 1920, not a configured limit defaulting
to 2000, under which 1950 would not roll over), and after a rollover the
counter is 4, not the fence length 3. -/
theorem c2_counterexample :
    checkNewPage { pages := [], current_page := [pageFence, "x"], count := 1950 } ≠
      claimedCheckNewPage 2000 { pages := [], current_page := [pageFence, "x"], count := 1950 } ∧
    (checkNewPage { pages := [], current_page := [pageFence], count := 2100 }).count ≠
      pageFence.length := by
  constructor
  · decide
  · decide

/-- C2 (amended): the rollover check closes the current page exactly when the
running counter strictly exceeds the hard-coded 1920 (there is no configurable
`page_size_limit`), and after a rollover the counter is reset to
`len(fence) + 1` (fence plus its newline), with a fresh page holding only the
fence. -/
theorem c2_rollover : ∀ st : PageState,
    (1920 < st.count → checkNewPage st =
      { pages := st.pages ++ [st.current_page ++ [pageFence]],
        current_page := [pageFence], count := pageFence.length + 1 }) ∧
    (st.count ≤ 1920 → checkNewPage st = st) := by
  intro st
  constructor
  · intro h
    unfold checkNewPage
    rw [if_pos h]
    rfl
  · intro h
    unfold checkNewPage
    rw [if_neg (by omega)]

/-- Witness for C2: a state over the threshold is flushed with the counter at
4, a state under it is untouched. -/
theorem c2_rollover_witness :
    checkNewPage { pages := [], current_page := [pageFence], count := 2000 } =
      { pages := [[pageFence, pageFence]], current_page := [pageFence],
        count := pageFence.length + 1 } ∧
    checkNewPage { pages := [], current_page := [pageFence], count := 10 } =
      { pages := [], current_page := [pageFence], count := 10 } :=
  ⟨(c2_rollover _).1 (by decide), (c2_rollover _).2 (by decide)⟩

/-- C3, counterexample: on twenty four-letter words at width 80, `shorten`
returns the first 15 words with the truncation placeholder `' [...]'`
appended, not the bare first wrapped line (16 words) that the claim
describes; an ellipsis-style indicator IS appended. -/
theorem c3_counterexample :
    shorten 80 c3text =
      .ok "aaaa aaaa aaaa aaaa aaaa aaaa aaaa aaaa aaaa aaaa aaaa aaaa aaaa aaaa aaaa [...]" ∧
    specShorten 80 c3text =
      "aaaa aaaa aaaa aaaa aaaa aaaa aaaa aaaa aaaa aaaa aaaa aaaa aaaa aaaa aaaa aaaa" ∧
    shorten 80 c3text ≠ .ok (specShorten 80 c3text) := by
  refine ⟨by decide, by decide, by decide⟩

/-- C3 (amended): the single-line half of the claim holds — a successful
`shorten` result never contains an embedded line separator — but when the text
does not fit the width the single line is truncated with the placeholder
`' [...]'` appended (see `c3_counterexample`), not the bare first wrapped
line. -/
theorem c3_single_line : ∀ (w : Nat) (t s : String),
    shorten w t = .ok s → '\n' ∉ s.data :=
  fun _ _ _ h => shorten_ok_no_nl h

/-- Witness for C3: applied at width 80 and a short text. -/
theorem c3_single_line_witness : '\n' ∉ ("hello world" : String).data :=
  c3_single_line 80 "hello world" "hello world" rfl

/-- C4, counterexample: `filter_command_list` wraps no exception handler
around `cmd.can_run(self.context)`; a check that raises its check-failed
condition aborts the whole `format` call, which returns the raised failure to
the caller instead of treating the command as not visible. -/
theorem c4_counterexample : format cfg0 ctx0 false grpBoom = .error .checkFailure := rfl

/-- C4 (amended): a check returning False excludes the command from the
filtered list, but a check that raises propagates the failure out of the
filter (and hence out of `format`); it is not absorbed as "not visible". -/
theorem c4_check_absorption :
    (∀ (cfg : Config) (ctx : Ctx) (n : String) (c : Command)
        (rest : List (String × Command)),
      (c.hidden && !cfg.show_hidden) = false → cfg.show_check_faiure = false →
      c.can_run ctx = .ok false →
      filterCommandList cfg ctx ((n, c) :: rest) = filterCommandList cfg ctx rest) ∧
    (∀ (cfg : Config) (ctx : Ctx) (n : String) (c : Command)
        (rest : List (String × Command)) (err : PyErr),
      (c.hidden && !cfg.show_hidden) = false → cfg.show_check_faiure = false →
      c.can_run ctx = .error err →
      filterCommandList cfg ctx ((n, c) :: rest) = .error err) := by
  constructor
  · intro cfg ctx n c rest h1 h2 h3
    have hpred : filterPredicate cfg ctx (n, c) = .ok false := by
      unfold filterPredicate
      dsimp only
      rw [if_neg (by simp [h1]), if_neg (by simp [h2]), h3]
    conv_lhs => rw [filterCommandList]
    simp only [hpred, Bind.bind, Except.bind]
    cases hrest : filterCommandList cfg ctx rest <;>
      simp [pure, Except.pure]
  · intro cfg ctx n c rest err h1 h2 h3
    have hpred : filterPredicate cfg ctx (n, c) = .error err := by
      unfold filterPredicate
      dsimp only
      rw [if_neg (by simp [h1]), if_neg (by simp [h2]), h3]
    conv_lhs => rw [filterCommandList]
    simp only [hpred, Bind.bind, Except.bind]

/-- Witness for C4: a False-returning check excludes its command; a raising
check propagates. -/
theorem c4_check_absorption_witness :
    filterCommandList cfg0 ctx0 [("no", noCmd)] = .ok [] ∧
    filterCommandList cfg0 ctx0 [("boom", boomCmd)] = .error .checkFailure := by
  constructor
  · rw [c4_check_absorption.1 cfg0 ctx0 "no" noCmd [] rfl rfl rfl]
    rfl
  · exact c4_check_absorption.2 cfg0 ctx0 "boom" boomCmd [] .checkFailure rfl rfl rfl

/-- C5, counterexample: the sentinel key is `'​No Category:'`; a real
category whose label starts with the zero-width space followed by `Z` sorts
after it, so the sentinel is NOT last regardless of the labels' code
points. -/
theorem c5_counterexample :
    (categoryGroups c5dataZ).map Prod.fst = ["​No Category:", "​Zcat:"] ∧
    strLtb "​No Category:".data "​Zcat:".data = true := by
  refine ⟨by decide, by decide⟩

/-- C5 (amended): the concrete example of the claim holds — categories Zeta,
Alpha and none group in the order Alpha, Zeta, No Category — and the sentinel
sorts after every real category label whose first character is below U+200B
(in particular all printable ASCII labels), but not after arbitrary code
points (see `c5_counterexample`). -/
theorem c5_category_order :
    ((categoryGroups c5data).map Prod.fst = ["Alpha:", "Zeta:", "​No Category:"]) ∧
    (∀ (e f : String × Command) (cog : String) (c : Char) (cs : List Char),
      e.2.cog_name = some cog → f.2.cog_name = none → cog.data = c :: cs → c < '​' →
      strLtb (categoryOf e).data (categoryOf f).data = true) := by
  constructor
  · decide
  · intro e f cog c cs he hf hcog hc
    unfold categoryOf
    rw [he, hf]
    rw [show ((cog ++ ":").data) = cog.data ++ ":".data from String.data_append cog ":"]
    rw [hcog]
    rw [show (("​No Category:" : String).data) = '​' :: "No Category:".data from rfl]
    show strLtb (c :: (cs ++ ":".data)) ('​' :: "No Category:".data) = true
    unfold strLtb
    rw [if_pos hc]

/-- Witness for C5: an ASCII label sorts before the sentinel. -/
theorem c5_category_order_witness :
    strLtb (categoryOf ("a", catCmd "a" (some "Alpha"))).data
      (categoryOf ("n", catCmd "n" none)).data = true :=
  c5_category_order.2 ("a", catCmd "a" (some "Alpha")) ("n", catCmd "n" none)
    "Alpha" 'A' "lpha".data rfl rfl rfl (by decide)

/-- C6 (confirmed): a rendered entry line is placed as one whole element of
exactly one flushed page's line list — pages are built line by line and
flushed wholesale, and the rollover check runs before the entry is appended —
so the entry is fully contained in the single page string obtained by joining
that line list; it never straddles two pages. -/
theorem c6_no_split : ∀ (cfg : Config) (ctx : Ctx) (isBot : Bool) (cmd : Command)
    (items data : List (String × Command)) (mw : Nat) (name : String) (c : Command)
    (e : String) (ps : List String),
    cmd.subcommands = some items →
    filterCommandList cfg ctx items = .ok data →
    maxNameSize cmd = .ok mw →
    (name, c) ∈ data →
    name ∉ c.aliases →
    shorten cfg.width (entryText mw name c) = .ok e →
    format cfg ctx isBot cmd = .ok ps →
    ∃ pl, strJoin "\n" pl ∈ ps ∧ e ∈ pl := by
  intro cfg ctx isBot cmd items data mw name c e ps hsub hfil hmw hmem halias hsh hfmt
  unfold format at hfmt
  cases hfp : formatPages cfg ctx isBot cmd with
  | error err => rw [hfp] at hfmt; simp [Except.map] at hfmt
  | ok pls =>
    rw [hfp] at hfmt
    simp only [Except.map] at hfmt
    cases hfmt
    obtain ⟨pl, hpl, he⟩ := formatPages_entry hsub hfil hmw hmem halias hsh hfp
    exact ⟨pl, List.mem_map_of_mem _ hpl, he⟩

/-- Witness for C6: in the page for `grpPing`, the entry line for `ping` sits
whole inside the single returned page. -/
theorem c6_no_split_witness :
    ∃ pl, strJoin "\n" pl ∈
        ["```\n!grp\n\nCommands:\n  ping Replies pong.\n\nType !help command for more info on a command.\nYou can also type !help category for more info on a category.\n```"] ∧
      "  ping Replies pong." ∈ pl :=
  c6_no_split cfg0 ctx0 false grpPing [("ping", pingCmd)] [("ping", pingCmd)] 4
    "ping" pingCmd "  ping Replies pong."
    ["```\n!grp\n\nCommands:\n  ping Replies pong.\n\nType !help command for more info on a command.\nYou can also type !help category for more info on a category.\n```"]
    rfl rfl rfl (List.mem_singleton.mpr rfl) (by decide) rfl rfl

/-- C7, counterexample: a catalog whose only entry for cog `X` is an alias
key (`remove_command` leaves alias keys behind after removing the primary
name) renders the header `X:` followed by zero member entry lines — the
groupby loop appends the header for every nonempty filtered group, but the
rendering loop then skips every alias entry. -/
theorem c7_counterexample :
    formatPages cfg0 ctx0 true botAlias = .ok [["```", "X:", "", note0, "```"]] := rfl

/-- C7 (amended): categories whose members are all removed by the visibility
filter are omitted entirely — every emitted group is nonempty and its header
label is the category key of some entry that survived the filter — but a
group whose surviving entries are all alias keys yields a header with zero
member entry lines (see `c7_counterexample`). -/
theorem c7_empty_categories :
    ∀ (data : List (String × Command)) (kg : String × List (String × Command)),
      kg ∈ categoryGroups data → kg.2 ≠ [] ∧ ∃ x ∈ data, categoryOf x = kg.1 := by
  intro data kg h
  obtain ⟨h1, x, hx, hk⟩ := groupRuns_sound categoryOf _ kg h
  exact ⟨h1, x, mem_pySorted.mp hx, hk⟩

/-- Witness for C7: the single group over a one-entry catalog is nonempty and
labelled by that entry's category. -/
theorem c7_empty_categories_witness :
    ("Alpha:", [("a", catCmd "a" (some "Alpha"))]).2 ≠ [] ∧
    ∃ x ∈ [("a", catCmd "a" (some "Alpha"))], categoryOf x = "Alpha:" :=
  c7_empty_categories [("a", catCmd "a" (some "Alpha"))]
    ("Alpha:", [("a", catCmd "a" (some "Alpha"))]) (List.mem_singleton.mpr rfl)

/-- C8, counterexample: with prefix `!`, name `help`, alias `h`, the code
renders `![help|h] ...` (the bracket group wraps the name together with the
aliases), not the `!help[h] ...` that the claim describes. -/
theorem c8_counterexample :
    getCommandSignature ctx0 sigCmd = "![help|h] member-name rest... n=3" ∧
    specSignature ctx0 sigCmd = "!help[h] member-name rest... n=3" ∧
    getCommandSignature ctx0 sigCmd ≠ specSignature ctx0 sigCmd := by
  refine ⟨by decide, by decide, by decide⟩

/-- C8 (amended): the signature is the resolved prefix concatenated with the
name alone when there are no aliases, or with `[name|alias1|alias2|...]` when
aliases exist, followed by one space-preceded token per declared parameter
(`name=default` for defaults, `name...` for variadics, underscores rendered
as hyphens). -/
theorem c8_signature : ∀ (ctx : Ctx) (cmd : Command),
    getCommandSignature ctx cmd = specSignatureAmended ctx cmd := by
  intro ctx cmd
  unfold getCommandSignature specSignatureAmended specParamTok
  dsimp only
  rw [strJoin_space_tokens]

/-- C9 (code bug): `max_name_size` guards only against `AttributeError`, so a
group or root catalog whose commands mapping is empty makes `max()` raise
`ValueError`, which escapes `format` — the claim (and the surrounding
try/except intent) says such input degrades to minimal output instead. -/
theorem c9_empty_catalog_crash :
    formatPages cfg0 ctx0 true emptyBot = .error .valueError ∧
    maxNameSize emptyBot = .error .valueError :=
  ⟨rfl, rfl⟩

/-- C10 (confirmed): every returned page string begins with the fence as its
first line and ends with the fence as its last line, for pages flushed by a
mid-run rollover, by the no-subcommands early flush, and by the final flush
alike. -/
theorem c10_fence_lines : ∀ (cfg : Config) (ctx : Ctx) (isBot : Bool) (cmd : Command)
    (ps : List String), format cfg ctx isBot cmd = .ok ps →
    ∀ p ∈ ps, (∃ m, p = "```\n" ++ m) ∧ (∃ m, p = m ++ "\n```") := by
  intro cfg ctx isBot cmd ps h p hp
  unfold format at h
  cases hfp : formatPages cfg ctx isBot cmd with
  | error err => rw [hfp] at h; simp [Except.map] at h
  | ok pls =>
    rw [hfp] at h
    simp only [Except.map] at h
    cases h
    obtain ⟨pl, hpl, rfl⟩ := List.mem_map.mp hp
    exact goodPage_join (formatPages_good hfp pl hpl)

/-- Witness for C10: the leaf page for `pingCmd` opens and closes with the
fence line. -/
theorem c10_fence_lines_witness :
    (∃ m, ("```\n!ping\n\nReplies pong.\n\n```" : String) = "```\n" ++ m) ∧
    (∃ m, ("```\n!ping\n\nReplies pong.\n\n```" : String) = m ++ "\n```") :=
  c10_fence_lines cfg0 ctx0 false pingCmd ["```\n!ping\n\nReplies pong.\n\n```"] rfl _
    (List.mem_singleton.mpr rfl)
